import Mathlib

/-!
Verification of the HoneycombReversi game engine (`src/src/App.jsx`).

The JavaScript source stores the board as a `Map` from string keys
`"q,r,s"` (cube coordinates, integers) to `'black'` / `'white'`.  Since the
key encoding is injective on integer triples, the shallow embedding uses the
coordinate triple itself as the key and models the `Map` as an association
list with JavaScript `Map` semantics (`set` replaces in place or appends,
`get` returns the first binding, `has` tests key presence).
-/

/-- Cube coordinate `(q, r, s)`; the source treats the three components as
plain JavaScript numbers, always integers here. -/
structure Coord where
  q : Int
  r : Int
  s : Int
deriving DecidableEq, Repr

/-- Piece colours, the only two values ever stored in the board map. -/
inductive Player where
  | black
  | white
deriving DecidableEq, Repr

/-- `currentPlayer === 'black' ? 'white' : 'black'` — the opponent swap used
throughout the source. -/
def opponent : Player → Player
  | Player.black => Player.white
  | Player.white => Player.black

/-- `cubeAdd` (App.jsx line 4): component-wise sum of two cube coordinates. -/
def cubeAdd (a b : Coord) : Coord :=
  ⟨a.q + b.q, a.r + b.r, a.s + b.s⟩

/-- `directions` (App.jsx lines 7-14): the six hexagonal unit vectors. -/
def directions : List Coord :=
  [⟨1, -1, 0⟩, ⟨1, 0, -1⟩, ⟨0, 1, -1⟩, ⟨-1, 1, 0⟩, ⟨-1, 0, 1⟩, ⟨0, -1, 1⟩]

/-- `BOARD_RADIUS` (App.jsx line 24). -/
def BOARD_RADIUS : Nat := 4

/-- `isInBounds` (App.jsx lines 27-31): all three components have absolute
value at most `BOARD_RADIUS`. -/
def isInBounds (c : Coord) : Bool :=
  c.q.natAbs ≤ BOARD_RADIUS && c.r.natAbs ≤ BOARD_RADIUS && c.s.natAbs ≤ BOARD_RADIUS

/-- The board: association list with JavaScript `Map` semantics. -/
abbrev Board := List (Coord × Player)

/-- `currentBoard.get(key)` — first binding for the key, if present. -/
def boardGet (b : Board) (c : Coord) : Option Player :=
  (b.find? (fun e => decide (e.1 = c))).map (fun e => e.2)

/-- `currentBoard.has(key)` — key presence. -/
def boardHas (b : Board) (c : Coord) : Bool :=
  b.any (fun e => decide (e.1 = c))

/-- `map.set(key, value)` — replace the binding in place when the key is
present, otherwise append a new binding (JavaScript `Map` insertion order). -/
def boardSet (b : Board) (c : Coord) (p : Player) : Board :=
  if boardHas b c then b.map (fun e => if e.1 = c then (c, p) else e)
  else b ++ [(c, p)]

/-- `createInitialBoard` (App.jsx lines 34-44): the fixed 7-cell opening, in
the source's insertion order. -/
def createInitialBoard : Board :=
  [(⟨0, 0, 0⟩, Player.white),
   (⟨1, -1, 0⟩, Player.black),
   (⟨0, 1, -1⟩, Player.black),
   (⟨-1, 0, 1⟩, Player.black),
   (⟨-1, 1, 0⟩, Player.white),
   (⟨1, 0, -1⟩, Player.white),
   (⟨0, -1, 1⟩, Player.white)]

/-- The `while (isInBounds(current))` loop of `findFlipsInDirection`
(App.jsx lines 60-67), with explicit fuel.  One in-bounds walk along a unit
direction can take at most 9 steps (a component moving by +1 per step stays
in `[-4, 4]`), so the fuel of 10 supplied below is never exhausted. -/
def findFlipsAux : Nat → Coord → Coord → Player → Board → List Coord → List Coord
  | 0, _, _, _, _, _ => []
  | fuel + 1, current, direction, player, b, flips =>
    if isInBounds current then
      match boardGet b current with
      | none => []
      | some piece =>
        if piece = player then flips
        else findFlipsAux fuel (cubeAdd current direction) direction player b (flips ++ [current])
    else []

/-- `findFlipsInDirection` (App.jsx lines 56-69): walk from `coord + direction`
in steps of `direction`; empty cell or leaving the board yields `[]`, the
player's own piece yields the opponent pieces accumulated so far. -/
def findFlipsInDirection (coord direction : Coord) (player : Player) (b : Board) : List Coord :=
  findFlipsAux 10 (cubeAdd coord direction) direction player b []

/-- `getFlips` (App.jsx lines 72-84): `[]` for an occupied coordinate,
otherwise the concatenation of the non-empty directional chains. -/
def getFlips (coord : Coord) (player : Player) (b : Board) : List Coord :=
  if boardHas b coord then []
  else directions.foldl
    (fun allFlips dir =>
      let flips := findFlipsInDirection coord dir player b
      if flips.length > 0 then allFlips ++ flips else allFlips) []

/-- The loop range `for (let q = -BOARD_RADIUS; q <= BOARD_RADIUS; q++)`. -/
def intRange : List Int := [-4, -3, -2, -1, 0, 1, 2, 3, 4]

/-- The coordinates enumerated by `calculateValidMoves` (App.jsx lines 89-91):
`q` and `r` over the range, `s = -q - r`. -/
def rangeCoords : List Coord :=
  intRange.flatMap (fun q => intRange.flatMap (fun r => [⟨q, r, -q - r⟩]))

/-- `calculateValidMoves` (App.jsx lines 87-101): an enumerated coordinate is
kept iff it is in bounds and `getFlips` is non-empty. -/
def calculateValidMoves (player : Player) (b : Board) : List Coord :=
  rangeCoords.filter (fun c => isInBounds c && !(getFlips c player b).isEmpty)

/-- Score record `{ black, white }`. -/
structure Scores where
  black : Nat
  white : Nat
deriving DecidableEq, Repr

/-- `calculateScores` (App.jsx lines 104-111): full scan, counting `'black'`
values in one counter and everything else in the other. -/
def calculateScores (b : Board) : Scores :=
  b.foldl
    (fun sc e =>
      if e.2 = Player.black then { sc with black := sc.black + 1 }
      else { sc with white := sc.white + 1 })
    ⟨0, 0⟩

/-- Read a player's entry out of a `Scores` record. -/
def scoreFor (sc : Scores) : Player → Nat
  | Player.black => sc.black
  | Player.white => sc.white

/-- Game state: the four React state cells of the component that the engine
claims are about (`board`, `currentPlayer`, `gameOver`, `scores`). -/
structure GameState where
  board : Board
  currentPlayer : Player
  gameOver : Bool
  scores : Scores
deriving DecidableEq, Repr

/-- The initial `useState` values (App.jsx lines 47-51). -/
def initialState : GameState :=
  { board := createInitialBoard
    currentPlayer := Player.black
    gameOver := false
    scores := ⟨3, 4⟩ }

/-- The board update of `handleCellClick` (App.jsx lines 138-142) and of
`evaluateFutureState` (lines 488-490): place the piece, then set every
flipped key to the mover's colour. -/
def applyMoveBoard (b : Board) (coord : Coord) (player : Player) : Board :=
  let flips := getFlips coord player b
  flips.foldl (fun nb k => boardSet nb k player) (boardSet b coord player)

/-- `handleCellClick` (App.jsx lines 130-147): no-op when the game is over or
the coordinate is not a currently valid move; otherwise apply the placement
and flips, recompute scores, and hand the turn to the opponent.  (The React
`validMoves` state cell is always `calculateValidMoves(currentPlayer, board)`,
maintained by the effect at lines 114-127; the membership test is written
against that value directly.) -/
def handleCellClick (st : GameState) (c : Coord) : GameState :=
  if st.gameOver then st
  else if c ∈ calculateValidMoves st.currentPlayer st.board then
    let newBoard := applyMoveBoard st.board c st.currentPlayer
    { board := newBoard
      currentPlayer := opponent st.currentPlayer
      gameOver := st.gameOver
      scores := calculateScores newBoard }
  else st

/-- The turn-progression effect (App.jsx lines 114-127): when the player to
move has no valid moves, either pass to the opponent (who has some) or mark
the game over (neither side can move). -/
def turnUpdate (st : GameState) : GameState :=
  let moves := calculateValidMoves st.currentPlayer st.board
  if moves.isEmpty then
    let opp := opponent st.currentPlayer
    let oppMoves := calculateValidMoves opp st.board
    if oppMoves.isEmpty then { st with gameOver := true }
    else { st with currentPlayer := opp }
  else st

/-- `resetGame` (App.jsx lines 150-155): restore the four state cells to
their opening values, regardless of the current state. -/
def resetGame (_st : GameState) : GameState :=
  { board := createInitialBoard
    currentPlayer := Player.black
    gameOver := false
    scores := ⟨3, 4⟩ }

/-- The winner displayed at game over (App.jsx line 259):
`black > white ? black wins : white > black ? white wins : draw`. -/
def winner (sc : Scores) : Option Player :=
  if sc.black > sc.white then some Player.black
  else if sc.white > sc.black then some Player.white
  else none

/-- `cubeDistance` (App.jsx second variant, lines 340-342). -/
def cubeDistance (c : Coord) : Nat :=
  max c.q.natAbs (max c.r.natAbs c.s.natAbs)

/-- `CPU_DIFFICULTY` (lines 443-447). -/
inductive Difficulty where
  | easy
  | normal
  | hard
deriving DecidableEq, Repr

/-- `evaluatePosition` (lines 450-457): positional tier by distance from the
centre. -/
def evaluatePosition (q r s : Int) : ℚ :=
  let distance := cubeDistance ⟨q, r, s⟩
  if distance = BOARD_RADIUS then 10
  else if distance = BOARD_RADIUS - 1 then 5
  else if distance = 0 then 3
  else 1

/-- `evaluateFutureState` (lines 483-498): apply the hypothetical placement,
then return minus the opponent's resulting valid-move count times `0.5`. -/
def evaluateFutureState (coord : Coord) (player : Player) (b : Board) : ℚ :=
  let newBoard := applyMoveBoard b coord player
  let opponentMoves := calculateValidMoves (opponent player) newBoard
  let lookAhead : ℚ := -(opponentMoves.length : ℚ) * (1 / 2)
  lookAhead

/-- `evaluateMove` (lines 460-480).  `-Infinity` (a move with no flips) is
modelled as `none`; the single `Math.random()` draw of the easy and normal
tiers is passed in as `rand`. -/
def evaluateMove (coord : Coord) (player : Player) (b : Board)
    (difficulty : Difficulty) (rand : ℚ) : Option ℚ :=
  let flips := getFlips coord player b
  if flips.length = 0 then none
  else
    let positionValue := evaluatePosition coord.q coord.r coord.s
    let flipCount : ℚ := (flips.length : ℚ)
    some (match difficulty with
      | Difficulty.easy => flipCount + rand * 10
      | Difficulty.normal => flipCount * 2 + positionValue + rand * 3
      | Difficulty.hard => flipCount * 3 + positionValue * 2 + evaluateFutureState coord player b)

/-- JavaScript `score > bestScore` where `-Infinity` is `none`. -/
def scoreGT : Option ℚ → Option ℚ → Bool
  | none, _ => false
  | some _, none => true
  | some a, some b => decide (b < a)

/-- `selectCPUMove` (lines 501-520): scan the candidate moves, keeping the
first strict improvement over the best score so far (initially `-Infinity`
with no move selected). -/
def selectCPUMove (validMoves : List Coord) (player : Player) (b : Board)
    (difficulty : Difficulty) (rand : Coord → ℚ) : Option Coord :=
  if validMoves.isEmpty then none
  else
    (validMoves.foldl
      (fun best moveKey =>
        let score := evaluateMove moveKey player b difficulty (rand moveKey)
        if scoreGT score best.2 then (some moveKey, score) else best)
      ((none : Option Coord), (none : Option ℚ))).1

/-- The coordinate chosen by `executeCPUMove` (lines 559-594): recompute the
white valid moves, bail out when there are none, otherwise ask
`selectCPUMove`; only the chosen key is ever applied to the board. -/
def executeCPUMove (b : Board) (difficulty : Difficulty) (rand : Coord → ℚ) : Option Coord :=
  let currentValidMoves := calculateValidMoves Player.white b
  if currentValidMoves.isEmpty then none
  else selectCPUMove currentValidMoves Player.white b difficulty rand

/-- A board key is well-formed when it is zero-sum and within the radius. -/
def keyOK (c : Coord) : Bool :=
  decide (c.q + c.r + c.s = 0) && isInBounds c

/-- Every key present in the occupancy mapping is well-formed. -/
def boardOK (b : Board) : Bool :=
  b.all (fun e => keyOK e.1)

/-- Position reached after `j` steps of `cubeAdd · d` starting at `current`:
the cell inspected by iteration `j` of the walk loop. -/
def walkFrom (current d : Coord) : Nat → Coord
  | 0 => current
  | j + 1 => cubeAdd (walkFrom current d j) d

/-- The `j`-th cell visited by `findFlipsInDirection` from `coord`
(step 0 is `coord + d`). -/
def walkPos (coord d : Coord) (j : Nat) : Coord :=
  walkFrom (cubeAdd coord d) d j

/-- Number of board entries holding the given colour. -/
def pcount (b : Board) (p : Player) : Nat :=
  b.countP (fun e => decide (e.2 = p))

/-- States reachable through the public operations: the initial state, legal
move application, the turn-progression effect, and reset; the index counts
the legal moves applied since the last (re)start. -/
inductive Reaches : GameState → Nat → Prop where
  | init : Reaches initialState 0
  | move {st n c} : Reaches st n → st.gameOver = false →
      c ∈ calculateValidMoves st.currentPlayer st.board →
      Reaches (handleCellClick st c) (n + 1)
  | pass {st n} : Reaches st n → Reaches (turnUpdate st) n
  | reset {st n} : Reaches st n → Reaches (resetGame st) 0

/-! ## Basic lemmas -/

lemma opponent_ne (p : Player) : opponent p ≠ p := by
  cases p <;> simp [opponent]

lemma eq_opponent_of_ne {piece p : Player} (h : piece ≠ p) : piece = opponent p := by
  cases piece <;> cases p <;> simp_all [opponent]

lemma isInBounds_iff (c : Coord) :
    isInBounds c = true ↔
      -4 ≤ c.q ∧ c.q ≤ 4 ∧ -4 ≤ c.r ∧ c.r ≤ 4 ∧ -4 ≤ c.s ∧ c.s ≤ 4 := by
  simp only [isInBounds, BOARD_RADIUS, Bool.and_eq_true, decide_eq_true_eq]
  omega

lemma turnUpdate_board (st : GameState) : (turnUpdate st).board = st.board := by
  rw [turnUpdate]
  dsimp only
  split_ifs <;> rfl

/-! ## C6: illegal moves are rejected without touching the state -/

/-- C6: a click on a coordinate outside the current legal-move set leaves the
entire game state (board, player to move, scores, terminal flag) unchanged. -/
theorem illegal_click_rejected (st : GameState) (c : Coord)
    (h : c ∉ calculateValidMoves st.currentPlayer st.board) :
    handleCellClick st c = st := by
  rw [handleCellClick]
  split_ifs <;> rfl

theorem illegal_click_rejected_witness :
    handleCellClick initialState ⟨0, 0, 0⟩ = initialState :=
  illegal_click_rejected initialState ⟨0, 0, 0⟩ (by decide)

/-! ## C4: reset and initial creation give the fixed opening -/

/-- C4: `resetGame` (and the initial state) always produce the fixed opening:
white in the centre, the six neighbours (the centre plus each direction)
split three black / three white exactly as in the source, scores 3 black and
4 white consistent with `calculateScores`, and black fixed as first mover. -/
theorem reset_gives_opening (st : GameState) :
    resetGame st = initialState ∧
    initialState.board = createInitialBoard ∧
    initialState.currentPlayer = Player.black ∧
    initialState.gameOver = false ∧
    initialState.scores = ⟨3, 4⟩ ∧
    boardGet createInitialBoard ⟨0, 0, 0⟩ = some Player.white ∧
    directions.map (cubeAdd ⟨0, 0, 0⟩) =
      [⟨1, -1, 0⟩, ⟨1, 0, -1⟩, ⟨0, 1, -1⟩, ⟨-1, 1, 0⟩, ⟨-1, 0, 1⟩, ⟨0, -1, 1⟩] ∧
    boardGet createInitialBoard ⟨1, -1, 0⟩ = some Player.black ∧
    boardGet createInitialBoard ⟨0, 1, -1⟩ = some Player.black ∧
    boardGet createInitialBoard ⟨-1, 0, 1⟩ = some Player.black ∧
    boardGet createInitialBoard ⟨-1, 1, 0⟩ = some Player.white ∧
    boardGet createInitialBoard ⟨1, 0, -1⟩ = some Player.white ∧
    boardGet createInitialBoard ⟨0, -1, 1⟩ = some Player.white ∧
    calculateScores createInitialBoard = ⟨3, 4⟩ :=
  ⟨rfl, rfl, rfl, rfl, rfl, by decide, by decide, by decide, by decide, by decide,
   by decide, by decide, by decide, by decide⟩

/-! ## C3: pass and termination -/

lemma winner_spec (sc : Scores) :
    (∀ p, winner sc = some p ↔ scoreFor sc (opponent p) < scoreFor sc p) ∧
    (winner sc = none ↔ sc.black = sc.white) := by
  constructor
  · intro p
    cases p <;> rw [winner] <;> split_ifs <;>
      simp_all [scoreFor, opponent] <;> omega
  · rw [winner]; split_ifs <;> simp_all <;> omega

/-- C3: when the player to move has no legal moves, the turn passes to the
opponent (board untouched) if the opponent can move, and otherwise the state
becomes terminal with the winner the side of strictly greater piece count
(a draw on equality). -/
theorem stuck_player_passes_or_game_ends (st : GameState)
    (h : calculateValidMoves st.currentPlayer st.board = []) :
    (calculateValidMoves (opponent st.currentPlayer) st.board ≠ [] →
       turnUpdate st = { st with currentPlayer := opponent st.currentPlayer }) ∧
    (calculateValidMoves (opponent st.currentPlayer) st.board = [] →
       turnUpdate st = { st with gameOver := true } ∧
       (∀ p, winner (calculateScores st.board) = some p ↔
          scoreFor (calculateScores st.board) (opponent p) <
            scoreFor (calculateScores st.board) p) ∧
       (winner (calculateScores st.board) = none ↔
          (calculateScores st.board).black = (calculateScores st.board).white)) := by
  constructor
  · intro hopp
    rw [turnUpdate]
    dsimp only
    rw [h]
    cases hE : (calculateValidMoves (opponent st.currentPlayer) st.board).isEmpty
    · simp [hE]
    · exact absurd (List.isEmpty_iff.mp hE) hopp
  · intro hopp
    refine ⟨?_, (winner_spec _).1, (winner_spec _).2⟩
    rw [turnUpdate]
    dsimp only
    rw [h, hopp]
    simp

/-! ## C1: characterization of the directional capture chain -/

lemma walkFrom_shift (current d : Coord) (j : Nat) :
    walkFrom (cubeAdd current d) d j = cubeAdd (walkFrom current d j) d := by
  induction j with
  | zero => rfl
  | succ j ih => simp [walkFrom, ih]

lemma walk_escape (f : Coord → Int) (hf : ∀ a b, f (cubeAdd a b) = f a + f b)
    (d : Coord) (hd1 : f d = 1)
    (hbound : ∀ c, isInBounds c = true → -4 ≤ f c ∧ f c ≤ 4)
    (current : Coord) (k : Nat)
    (h : ∀ j < k, isInBounds (walkFrom current d j) = true) : k ≤ 9 := by
  by_contra hk
  push_neg at hk
  have hmono : ∀ j : Nat, f (walkFrom current d j) = f current + j := by
    intro j
    induction j with
    | zero => simp [walkFrom]
    | succ j ih => simp [walkFrom, hf, ih, hd1]; ring
  have h0 := hbound _ (h 0 (by omega))
  have h9 := hbound _ (h 9 (by omega))
  rw [hmono 0] at h0
  rw [hmono 9] at h9
  omega

lemma inBounds_q (c : Coord) (hc : isInBounds c = true) : -4 ≤ c.q ∧ c.q ≤ 4 := by
  have := (isInBounds_iff c).1 hc; omega

lemma inBounds_r (c : Coord) (hc : isInBounds c = true) : -4 ≤ c.r ∧ c.r ≤ 4 := by
  have := (isInBounds_iff c).1 hc; omega

lemma inBounds_s (c : Coord) (hc : isInBounds c = true) : -4 ≤ c.s ∧ c.s ≤ 4 := by
  have := (isInBounds_iff c).1 hc; omega

lemma walk_bound {d : Coord} (hd : d ∈ directions) (current : Coord) (k : Nat)
    (h : ∀ j < k, isInBounds (walkFrom current d j) = true) : k ≤ 9 := by
  simp only [directions, List.mem_cons, List.not_mem_nil, or_false] at hd
  rcases hd with rfl | rfl | rfl | rfl | rfl | rfl
  · exact walk_escape Coord.q (fun a b => rfl) _ rfl inBounds_q current k h
  · exact walk_escape Coord.q (fun a b => rfl) _ rfl inBounds_q current k h
  · exact walk_escape Coord.r (fun a b => rfl) _ rfl inBounds_r current k h
  · exact walk_escape Coord.r (fun a b => rfl) _ rfl inBounds_r current k h
  · exact walk_escape Coord.s (fun a b => rfl) _ rfl inBounds_s current k h
  · exact walk_escape Coord.s (fun a b => rfl) _ rfl inBounds_s current k h

lemma range_map_walk (d : Coord) : ∀ (k : Nat) (current : Coord),
    (List.range (k + 1)).map (walkFrom current d) =
      current :: (List.range k).map (walkFrom (cubeAdd current d) d) := by
  intro k
  induction k with
  | zero => intro current; simp [List.range_succ, walkFrom]
  | succ k ih =>
    intro current
    rw [List.range_succ, List.map_append, ih current, List.range_succ, List.map_append]
    have : walkFrom current d (k + 1) = walkFrom (cubeAdd current d) d k := by
      rw [walkFrom_shift]; simp [walkFrom]
    simp [this]

lemma findFlipsAux_spec (b : Board) (d : Coord) (p : Player) :
    ∀ (k fuel : Nat) (current : Coord) (acc : List Coord), k < fuel →
    (∀ j < k, isInBounds (walkFrom current d j) = true ∧
        boardGet b (walkFrom current d j) = some (opponent p)) →
    ((isInBounds (walkFrom current d k) = true → boardGet b (walkFrom current d k) = none →
        findFlipsAux fuel current d p b acc = []) ∧
     (isInBounds (walkFrom current d k) = true → boardGet b (walkFrom current d k) = some p →
        findFlipsAux fuel current d p b acc = acc ++ (List.range k).map (walkFrom current d)) ∧
     (isInBounds (walkFrom current d k) = false →
        findFlipsAux fuel current d p b acc = [])) := by
  intro k
  induction k with
  | zero =>
    intro fuel current acc hfuel _hops
    obtain ⟨f, rfl⟩ : ∃ f, fuel = f + 1 := ⟨fuel - 1, by omega⟩
    refine ⟨?_, ?_, ?_⟩
    · intro hb hg
      simp only [walkFrom] at hb hg
      simp [findFlipsAux, hb, hg]
    · intro hb hg
      simp only [walkFrom] at hb hg
      simp [findFlipsAux, hb, hg]
    · intro hb
      simp only [walkFrom] at hb
      simp [findFlipsAux, hb]
  | succ k ih =>
    intro fuel current acc hfuel hops
    obtain ⟨f, rfl⟩ : ∃ f, fuel = f + 1 := ⟨fuel - 1, by omega⟩
    obtain ⟨hb0, hg0⟩ := hops 0 (Nat.succ_pos k)
    simp only [walkFrom] at hb0 hg0
    have hstep : findFlipsAux (f + 1) current d p b acc
        = findFlipsAux f (cubeAdd current d) d p b (acc ++ [current]) := by
      simp [findFlipsAux, hb0, hg0, opponent_ne]
    have hops' : ∀ j < k, isInBounds (walkFrom (cubeAdd current d) d j) = true ∧
        boardGet b (walkFrom (cubeAdd current d) d j) = some (opponent p) := by
      intro j hj
      have h := hops (j + 1) (by omega)
      have he : walkFrom current d (j + 1) = walkFrom (cubeAdd current d) d j := by
        rw [walkFrom_shift]; simp [walkFrom]
      rwa [he] at h
    have ih' := ih f (cubeAdd current d) (acc ++ [current]) (by omega) hops'
    have hsh : walkFrom current d (k + 1) = walkFrom (cubeAdd current d) d k := by
      rw [walkFrom_shift]; simp [walkFrom]
    refine ⟨?_, ?_, ?_⟩
    · intro hb hg
      rw [hstep]
      exact ih'.1 (hsh ▸ hb) (hsh ▸ hg)
    · intro hb hg
      rw [hstep, ih'.2.1 (hsh ▸ hb) (hsh ▸ hg), range_map_walk]
      simp
    · intro hb
      rw [hstep]
      exact ih'.2.2 (hsh ▸ hb)

/-- C1: full characterization of `findFlipsInDirection`.  If the first `k`
walk cells are in-bounds opponent pieces, then: meeting an empty cell next
yields `[]`; meeting the moving player's own piece next yields exactly the
`k` accumulated opponent cells (zero when the first step is already the
player's own piece); and leaving the board radius next yields `[]` — an
edge-truncated chain captures nothing. -/
theorem directional_capture_chain (b : Board) (coord d : Coord) (p : Player) (k : Nat)
    (hd : d ∈ directions)
    (hops : ∀ j < k, isInBounds (walkPos coord d j) = true ∧
        boardGet b (walkPos coord d j) = some (opponent p)) :
    (isInBounds (walkPos coord d k) = true → boardGet b (walkPos coord d k) = none →
       findFlipsInDirection coord d p b = []) ∧
    (isInBounds (walkPos coord d k) = true → boardGet b (walkPos coord d k) = some p →
       findFlipsInDirection coord d p b = (List.range k).map (walkPos coord d)) ∧
    (isInBounds (walkPos coord d k) = false → findFlipsInDirection coord d p b = []) := by
  have hk : k ≤ 9 := walk_bound hd (cubeAdd coord d) k (fun j hj => (hops j hj).1)
  have h := findFlipsAux_spec b d p k 10 (cubeAdd coord d) [] (by omega) hops
  simpa [findFlipsInDirection, walkPos] using h

theorem directional_capture_chain_witness :
    findFlipsInDirection ⟨-1, 2, -1⟩ ⟨0, -1, 1⟩ Player.black createInitialBoard =
      (List.range 1).map (walkPos ⟨-1, 2, -1⟩ ⟨0, -1, 1⟩) :=
  (directional_capture_chain createInitialBoard ⟨-1, 2, -1⟩ ⟨0, -1, 1⟩ Player.black 1
    (by decide) (by decide)).2.1 (by decide) (by decide)

/-! ## C2: legality is derived from the flip computation -/

lemma mem_intRange (q : Int) : q ∈ intRange ↔ -4 ≤ q ∧ q ≤ 4 := by
  constructor
  · intro h
    simp only [intRange, List.mem_cons, List.not_mem_nil, or_false] at h
    rcases h with rfl | rfl | rfl | rfl | rfl | rfl | rfl | rfl | rfl <;> omega
  · rintro ⟨h1, h2⟩
    interval_cases q <;> simp [intRange]

lemma mem_rangeCoords (c : Coord) :
    c ∈ rangeCoords ↔
      -4 ≤ c.q ∧ c.q ≤ 4 ∧ -4 ≤ c.r ∧ c.r ≤ 4 ∧ c.s = -c.q - c.r := by
  obtain ⟨q, r, s⟩ := c
  simp only [rangeCoords, List.mem_flatMap, List.mem_singleton, mem_intRange,
    Coord.mk.injEq]
  constructor
  · rintro ⟨a, ha, b, hb, rfl, rfl, rfl⟩
    exact ⟨ha.1, ha.2, hb.1, hb.2, rfl⟩
  · rintro ⟨h1, h2, h3, h4, rfl⟩
    exact ⟨q, ⟨h1, h2⟩, r, ⟨h3, h4⟩, rfl, rfl, rfl⟩

lemma getFlips_of_has {b : Board} {c : Coord} (p : Player) (h : boardHas b c = true) :
    getFlips c p b = [] := by
  simp [getFlips, h]

/-- C2: an in-bounds cube coordinate is in the legal-move set iff `getFlips`
is non-empty; and an occupied coordinate has empty `getFlips` (computed
immediately from the occupancy test), hence is never legal. -/
theorem legal_iff_flips (b : Board) (p : Player) (c : Coord)
    (hzero : c.q + c.r + c.s = 0) (hb : isInBounds c = true) :
    (c ∈ calculateValidMoves p b ↔ getFlips c p b ≠ []) ∧
    (boardHas b c = true →
       getFlips c p b = [] ∧ c ∉ calculateValidMoves p b) := by
  have hmem : c ∈ rangeCoords := by
    rw [mem_rangeCoords]
    have := (isInBounds_iff c).1 hb
    omega
  have hiff : c ∈ calculateValidMoves p b ↔ getFlips c p b ≠ [] := by
    rw [calculateValidMoves, List.mem_filter]
    simp [hmem, hb, List.isEmpty_iff]
  refine ⟨hiff, fun hhas => ⟨getFlips_of_has p hhas, ?_⟩⟩
  rw [hiff, getFlips_of_has p hhas]
  simp

theorem legal_iff_flips_witness :
    (⟨0, 0, 0⟩ : Coord) ∈ calculateValidMoves Player.black createInitialBoard ↔
      getFlips ⟨0, 0, 0⟩ Player.black createInitialBoard ≠ [] :=
  (legal_iff_flips createInitialBoard Player.black ⟨0, 0, 0⟩ (by decide) (by decide)).1

theorem stuck_player_passes_or_game_ends_witness :
    turnUpdate ⟨[], Player.black, false, ⟨0, 0⟩⟩ = ⟨[], Player.black, true, ⟨0, 0⟩⟩ :=
  ((stuck_player_passes_or_game_ends ⟨[], Player.black, false, ⟨0, 0⟩⟩ (by decide)).2
    (by decide)).1

/-! ## C9: board keys stay zero-sum and in bounds -/

lemma mem_findFlipsAux {b : Board} {d : Coord} {p : Player} :
    ∀ (fuel : Nat) (current : Coord) (acc : List Coord) (k : Coord),
      k ∈ findFlipsAux fuel current d p b acc →
      k ∈ acc ∨ (boardGet b k = some (opponent p) ∧ isInBounds k = true) := by
  intro fuel
  induction fuel with
  | zero => intro current acc k h; simp [findFlipsAux] at h
  | succ fuel ih =>
    intro current acc k h
    rw [findFlipsAux] at h
    by_cases hbnd : isInBounds current
    · rw [if_pos hbnd] at h
      cases hget : boardGet b current with
      | none => rw [hget] at h; simp at h
      | some piece =>
        rw [hget] at h
        dsimp only at h
        by_cases hp : piece = p
        · rw [if_pos hp] at h
          exact Or.inl h
        · rw [if_neg hp] at h
          rcases ih _ _ _ h with hin | hprop
          · rcases List.mem_append.1 hin with h1 | h2
            · exact Or.inl h1
            · simp only [List.mem_singleton] at h2
              subst h2
              exact Or.inr ⟨by rw [hget, eq_opponent_of_ne hp], hbnd⟩
          · exact Or.inr hprop
    · rw [if_neg hbnd] at h
      simp at h

lemma mem_getFlips {b : Board} {p : Player} {c k : Coord} (h : k ∈ getFlips c p b) :
    boardGet b k = some (opponent p) ∧ isInBounds k = true := by
  rw [getFlips] at h
  split_ifs at h with hh
  · simp at h
  · have key : ∀ (l : List Coord) (init : List Coord),
        k ∈ l.foldl (fun allFlips dir =>
          let flips := findFlipsInDirection c dir p b
          if flips.length > 0 then allFlips ++ flips else allFlips) init →
        k ∈ init ∨ ∃ d ∈ l, k ∈ findFlipsInDirection c d p b := by
      intro l
      induction l with
      | nil => intro init h'; exact Or.inl h'
      | cons dir rest ih =>
        intro init h'
        simp only [List.foldl_cons] at h'
        rcases ih _ h' with hin | hex
        · split_ifs at hin with hl
          · rcases List.mem_append.1 hin with h1 | h2
            · exact Or.inl h1
            · exact Or.inr ⟨dir, by simp, h2⟩
          · exact Or.inl hin
        · obtain ⟨d', hd', hk⟩ := hex
          exact Or.inr ⟨d', by simp [hd'], hk⟩
    rcases key directions [] h with h0 | ⟨d', _, hk⟩
    · simp at h0
    · rw [findFlipsInDirection] at hk
      rcases mem_findFlipsAux 10 (cubeAdd c d') [] k hk with h1 | h2
      · simp at h1
      · exact h2

lemma boardHas_of_get {b : Board} {k : Coord} {piece : Player}
    (h : boardGet b k = some piece) : boardHas b k = true := by
  rw [boardGet] at h
  cases hf : b.find? (fun e => decide (e.1 = k)) with
  | none => rw [hf] at h; simp at h
  | some e =>
    have hmem := List.mem_of_find?_eq_some hf
    have hpred := List.find?_some hf
    rw [boardHas, List.any_eq_true]
    exact ⟨e, hmem, hpred⟩

lemma keyOK_of_get {b : Board} {k : Coord} {piece : Player}
    (hb : boardOK b = true) (h : boardGet b k = some piece) : keyOK k = true := by
  rw [boardGet] at h
  cases hf : b.find? (fun e => decide (e.1 = k)) with
  | none => rw [hf] at h; simp at h
  | some e =>
    have hmem := List.mem_of_find?_eq_some hf
    have hpred := List.find?_some hf
    rw [boardOK, List.all_eq_true] at hb
    have hk := hb e hmem
    simp only [decide_eq_true_eq] at hpred
    rwa [hpred] at hk

lemma keyOK_of_valid {p : Player} {b : Board} {c : Coord}
    (h : c ∈ calculateValidMoves p b) : keyOK c = true := by
  rw [calculateValidMoves, List.mem_filter] at h
  obtain ⟨hr, hpred⟩ := h
  have hz := (mem_rangeCoords c).1 hr
  rw [Bool.and_eq_true] at hpred
  have hb : isInBounds c = true := hpred.1
  simp only [keyOK, Bool.and_eq_true, decide_eq_true_eq]
  exact ⟨by omega, hb⟩

lemma boardSet_OK {b : Board} {c : Coord} (p : Player)
    (hb : boardOK b = true) (hc : keyOK c = true) : boardOK (boardSet b c p) = true := by
  rw [boardOK, List.all_eq_true] at hb ⊢
  rw [boardSet]
  split_ifs with h
  · intro e he
    rw [List.mem_map] at he
    obtain ⟨e', he', rfl⟩ := he
    by_cases h' : e'.1 = c
    · simpa [h'] using hc
    · simpa [h'] using hb e' he'
  · intro e he
    rcases List.mem_append.1 he with he | he
    · exact hb e he
    · simp only [List.mem_singleton] at he
      subst he
      simpa using hc

lemma foldl_set_OK (p : Player) :
    ∀ (l : List Coord) (b : Board), boardOK b = true → (∀ k ∈ l, keyOK k = true) →
      boardOK (l.foldl (fun nb k => boardSet nb k p) b) = true := by
  intro l
  induction l with
  | nil => intro b hb _; simpa using hb
  | cons k rest ih =>
    intro b hb hks
    simp only [List.foldl_cons]
    exact ih _ (boardSet_OK p hb (hks k (by simp)))
      (fun k' hk' => hks k' (by simp [hk']))

/-- C9: every board reachable through the public operations has only keys
with `q + r + s = 0` inside the fixed radius: the initial board satisfies
the invariant, `handleCellClick` preserves it, and `resetGame` restores it.
(Absence of a key is what the model — like the source's `Map` — reads as an
empty cell.) -/
theorem board_keys_invariant :
    boardOK createInitialBoard = true ∧
    (∀ (st : GameState) (c : Coord), boardOK st.board = true →
       boardOK (handleCellClick st c).board = true) ∧
    (∀ st : GameState, boardOK (resetGame st).board = true) := by
  refine ⟨by decide, ?_, fun st => by rw [resetGame]; decide⟩
  intro st c hb
  rw [handleCellClick]
  split_ifs with hg hm
  · exact hb
  · dsimp only
    rw [applyMoveBoard]
    apply foldl_set_OK
    · exact boardSet_OK _ hb (keyOK_of_valid hm)
    · intro k hk
      exact keyOK_of_get hb (mem_getFlips hk).1
  · exact hb

theorem board_keys_invariant_witness :
    boardOK (handleCellClick initialState ⟨-1, 2, -1⟩).board = true :=
  board_keys_invariant.2.1 initialState ⟨-1, 2, -1⟩ (by decide)

/-! ## C10: each legal move adds exactly one piece -/

lemma length_boardSet (b : Board) (c : Coord) (p : Player) :
    (boardSet b c p).length = if boardHas b c then b.length else b.length + 1 := by
  rw [boardSet]
  split_ifs with h <;> simp

lemma boardHas_mono (b : Board) (c : Coord) (p : Player) {k : Coord}
    (h : boardHas b k = true) : boardHas (boardSet b c p) k = true := by
  rw [boardSet]
  split_ifs with hc
  · rw [boardHas, List.any_eq_true] at h ⊢
    obtain ⟨e, he, hpred⟩ := h
    simp only [decide_eq_true_eq] at hpred
    refine ⟨if e.1 = c then (c, p) else e, List.mem_map_of_mem _ he, ?_⟩
    by_cases h' : e.1 = c
    · have hck : c = k := h'.symm.trans hpred
      simp [h', hck]
    · have hkc : ¬ k = c := fun hh => h' (by rw [hpred, hh])
      simp [h', hkc, hpred]
  · rw [boardHas, List.any_eq_true] at h ⊢
    obtain ⟨e, he, hp⟩ := h
    exact ⟨e, List.mem_append_left _ he, hp⟩

lemma foldl_set_length (p : Player) :
    ∀ (l : List Coord) (b : Board), (∀ k ∈ l, boardHas b k = true) →
      (l.foldl (fun nb k => boardSet nb k p) b).length = b.length := by
  intro l
  induction l with
  | nil => intro b _; rfl
  | cons k rest ih =>
    intro b hks
    simp only [List.foldl_cons]
    rw [ih _ (fun k' hk' => boardHas_mono _ _ _ (hks k' (by simp [hk'])))]
    rw [length_boardSet, if_pos (hks k (by simp))]

lemma not_has_of_valid {p : Player} {b : Board} {c : Coord}
    (h : c ∈ calculateValidMoves p b) : boardHas b c = false := by
  by_contra hc
  rw [Bool.not_eq_false] at hc
  rw [calculateValidMoves, List.mem_filter] at h
  rw [getFlips_of_has p hc] at h
  simp at h

/-- C10: a legal move is placed on a previously empty cell, flips only cells
already holding the opponent's colour, and grows the occupancy map by exactly
one entry; consequently every state reachable with `n` legal moves applied
since the last (re)start has exactly `7 + n` pieces on the board. -/
theorem move_adds_one_piece :
    (∀ (st : GameState) (c : Coord), st.gameOver = false →
       c ∈ calculateValidMoves st.currentPlayer st.board →
       boardHas st.board c = false ∧
       (∀ k ∈ getFlips c st.currentPlayer st.board,
          boardGet st.board k = some (opponent st.currentPlayer)) ∧
       (handleCellClick st c).board.length = st.board.length + 1) ∧
    (∀ (st : GameState) (n : Nat), Reaches st n → st.board.length = 7 + n) := by
  have hstep : ∀ (st : GameState) (c : Coord), st.gameOver = false →
      c ∈ calculateValidMoves st.currentPlayer st.board →
      boardHas st.board c = false ∧
      (∀ k ∈ getFlips c st.currentPlayer st.board,
         boardGet st.board k = some (opponent st.currentPlayer)) ∧
      (handleCellClick st c).board.length = st.board.length + 1 := by
    intro st c hg hm
    refine ⟨not_has_of_valid hm, fun k hk => (mem_getFlips hk).1, ?_⟩
    rw [handleCellClick, if_neg (by simp [hg]), if_pos hm]
    dsimp only
    rw [applyMoveBoard]
    rw [foldl_set_length _ _ _
      (fun k hk => boardHas_mono _ _ _ (boardHas_of_get (mem_getFlips hk).1))]
    rw [length_boardSet, if_neg (by simp [not_has_of_valid hm])]
  refine ⟨hstep, ?_⟩
  intro st n h
  induction h with
  | init => rfl
  | move hr hg hm ih =>
    have hlen := (hstep _ _ hg hm).2.2
    omega
  | pass hr ih =>
    rw [turnUpdate_board]
    omega
  | reset hr ih =>
    rfl

theorem move_adds_one_piece_witness :
    (handleCellClick initialState ⟨-1, 2, -1⟩).board.length =
      initialState.board.length + 1 :=
  (move_adds_one_piece.1 initialState ⟨-1, 2, -1⟩ rfl (by decide)).2.2

/-! ## C5: a legal move never hurts the mover's count nor helps the opponent's -/

lemma calculateScores_eq (b : Board) :
    calculateScores b = ⟨pcount b Player.black, pcount b Player.white⟩ := by
  have h : ∀ (l : Board) (sc : Scores),
      l.foldl
        (fun sc e =>
          if e.2 = Player.black then { sc with black := sc.black + 1 }
          else { sc with white := sc.white + 1 }) sc =
      ⟨sc.black + pcount l Player.black, sc.white + pcount l Player.white⟩ := by
    intro l
    induction l with
    | nil => intro sc; simp [pcount]
    | cons e rest ih =>
      intro sc
      simp only [List.foldl_cons]
      rw [ih]
      cases he : e.2 with
      | black => simp [pcount, List.countP_cons, he, Scores.mk.injEq]; omega
      | white => simp [pcount, List.countP_cons, he, Scores.mk.injEq]; omega
  rw [calculateScores, h]
  simp

lemma scoreFor_calculateScores (b : Board) (p : Player) :
    scoreFor (calculateScores b) p = pcount b p := by
  rw [calculateScores_eq]
  cases p <;> rfl

lemma countP_map_ge {α : Type} {f : α → α} {pr : α → Bool}
    (h : ∀ e, pr e = true → pr (f e) = true) (l : List α) :
    l.countP pr ≤ (l.map f).countP pr := by
  induction l with
  | nil => simp
  | cons e rest ih =>
    simp only [List.map_cons, List.countP_cons]
    by_cases he : pr e = true
    · rw [he, h e he]
      omega
    · rw [Bool.not_eq_true] at he
      simp only [he, Bool.false_eq_true, if_false]
      split <;> omega

lemma countP_map_le {α : Type} {f : α → α} {pr : α → Bool}
    (h : ∀ e, pr (f e) = true → pr e = true) (l : List α) :
    (l.map f).countP pr ≤ l.countP pr := by
  induction l with
  | nil => simp
  | cons e rest ih =>
    simp only [List.map_cons, List.countP_cons]
    by_cases he : pr (f e) = true
    · rw [he, h e he]
      omega
    · rw [Bool.not_eq_true] at he
      simp only [he, Bool.false_eq_true, if_false]
      split <;> omega

lemma pcount_boardSet_self (b : Board) (c : Coord) (p : Player) :
    pcount b p ≤ pcount (boardSet b c p) p := by
  rw [boardSet]
  split_ifs with h
  · apply countP_map_ge
    intro e he
    by_cases h' : e.1 = c
    · simp [h']
    · simpa [h'] using he
  · rw [pcount, pcount, List.countP_append]
    omega

lemma pcount_boardSet_opp (b : Board) (c : Coord) (p q : Player) (hq : q ≠ p) :
    pcount (boardSet b c p) q ≤ pcount b q := by
  rw [boardSet]
  split_ifs with h
  · apply countP_map_le
    intro e he
    by_cases h' : e.1 = c
    · simp only [h', if_pos] at he
      simp only [decide_eq_true_eq] at he
      exact absurd he.symm hq
    · simpa [h'] using he
  · rw [pcount, pcount, List.countP_append]
    have : List.countP (fun e => decide (e.2 = q)) [(c, p)] = 0 := by
      simp [Ne.symm hq]
    omega

lemma foldl_pcount_ge (p : Player) :
    ∀ (l : List Coord) (b : Board),
      pcount b p ≤ pcount (l.foldl (fun nb k => boardSet nb k p) b) p := by
  intro l
  induction l with
  | nil => intro b; exact le_refl _
  | cons k rest ih =>
    intro b
    simp only [List.foldl_cons]
    exact le_trans (pcount_boardSet_self b k p) (ih _)

lemma foldl_pcount_le (p q : Player) (hq : q ≠ p) :
    ∀ (l : List Coord) (b : Board),
      pcount (l.foldl (fun nb k => boardSet nb k p) b) q ≤ pcount b q := by
  intro l
  induction l with
  | nil => intro b; exact le_refl _
  | cons k rest ih =>
    intro b
    simp only [List.foldl_cons]
    exact le_trans (ih _) (pcount_boardSet_opp b k p q hq)

/-- C5: applying a legal move (placement plus flips) never decreases the
mover's piece count and never increases the opponent's. -/
theorem legal_move_count_monotone (b : Board) (p : Player) (c : Coord)
    (_hlegal : c ∈ calculateValidMoves p b) :
    scoreFor (calculateScores b) p ≤
      scoreFor (calculateScores (applyMoveBoard b c p)) p ∧
    scoreFor (calculateScores (applyMoveBoard b c p)) (opponent p) ≤
      scoreFor (calculateScores b) (opponent p) := by
  rw [scoreFor_calculateScores, scoreFor_calculateScores, scoreFor_calculateScores,
    scoreFor_calculateScores, applyMoveBoard]
  constructor
  · exact le_trans (pcount_boardSet_self b c p) (foldl_pcount_ge p _ _)
  · exact le_trans (foldl_pcount_le p (opponent p) (opponent_ne p) _ _)
      (pcount_boardSet_opp b c p (opponent p) (opponent_ne p))

theorem legal_move_count_monotone_witness :
    scoreFor (calculateScores createInitialBoard) Player.black ≤
      scoreFor (calculateScores (applyMoveBoard createInitialBoard ⟨-1, 2, -1⟩ Player.black))
        Player.black ∧
    scoreFor (calculateScores (applyMoveBoard createInitialBoard ⟨-1, 2, -1⟩ Player.black))
        (opponent Player.black) ≤
      scoreFor (calculateScores createInitialBoard) (opponent Player.black) :=
  legal_move_count_monotone createInitialBoard Player.black ⟨-1, 2, -1⟩ (by decide)

/-! ## C7: the hard-tier look-ahead term -/

/-- C7 counterexample: the look-ahead term of `evaluateFutureState` is NOT the
negation of the opponent's resulting legal-move count.  On the opening board,
black playing `(-1, 2, -1)` leaves white 8 replies, and the term evaluates to
`-4`, not `-8`. -/
theorem lookahead_not_neg_reply_count :
    evaluateFutureState ⟨-1, 2, -1⟩ Player.black createInitialBoard ≠
      -((calculateValidMoves (opponent Player.black)
          (applyMoveBoard createInitialBoard ⟨-1, 2, -1⟩ Player.black)).length : ℚ) := by
  have hlen : (calculateValidMoves (opponent Player.black)
      (applyMoveBoard createInitialBoard ⟨-1, 2, -1⟩ Player.black)).length = 8 := by
    decide
  simp only [evaluateFutureState]
  rw [hlen]
  norm_num

/-- C7 (amended): at the `hard` tier the evaluation score is the flip count
times 3, plus the positional value times 2, plus a look-ahead term equal to
minus ONE HALF of the opponent's legal-move count on the board resulting from
the hypothetical placement. -/
theorem hard_eval_includes_halved_lookahead (coord : Coord) (p : Player) (b : Board)
    (rand : ℚ) (h : getFlips coord p b ≠ []) :
    evaluateMove coord p b Difficulty.hard rand =
      some (((getFlips coord p b).length : ℚ) * 3 +
        evaluatePosition coord.q coord.r coord.s * 2 +
        -(((calculateValidMoves (opponent p) (applyMoveBoard b coord p)).length : ℚ)) *
          (1 / 2)) := by
  have hlen : ¬ (getFlips coord p b).length = 0 := by
    simpa [List.length_eq_zero] using h
  rw [evaluateMove]
  simp only [evaluateFutureState]
  rw [if_neg hlen]

theorem hard_eval_includes_halved_lookahead_witness :
    evaluateMove ⟨-1, 2, -1⟩ Player.black createInitialBoard Difficulty.hard 0 =
      some (((getFlips ⟨-1, 2, -1⟩ Player.black createInitialBoard).length : ℚ) * 3 +
        evaluatePosition (⟨-1, 2, -1⟩ : Coord).q (⟨-1, 2, -1⟩ : Coord).r
          (⟨-1, 2, -1⟩ : Coord).s * 2 +
        -(((calculateValidMoves (opponent Player.black)
            (applyMoveBoard createInitialBoard ⟨-1, 2, -1⟩ Player.black)).length : ℚ)) *
          (1 / 2)) :=
  hard_eval_includes_halved_lookahead ⟨-1, 2, -1⟩ Player.black createInitialBoard 0
    (by decide)

/-! ## C8: the computer only ever plays a legal move -/

/-- C8: whenever `executeCPUMove` chooses a coordinate, that coordinate is a
member of white's current legal-move set (and when that set is empty, no
coordinate is chosen, since both the empty-set guard and `selectCPUMove`
return none). -/
theorem cpu_move_is_legal (b : Board) (difficulty : Difficulty) (rand : Coord → ℚ)
    (m : Coord) (h : executeCPUMove b difficulty rand = some m) :
    m ∈ calculateValidMoves Player.white b := by
  rw [executeCPUMove] at h
  split_ifs at h with he
  rw [selectCPUMove, if_neg he] at h
  have key : ∀ (l : List Coord) (best : Option Coord × Option ℚ),
      (l.foldl
        (fun best moveKey =>
          let score := evaluateMove moveKey Player.white b difficulty (rand moveKey)
          if scoreGT score best.2 then (some moveKey, score) else best)
        best).1 = some m →
      best.1 = some m ∨ m ∈ l := by
    intro l
    induction l with
    | nil => intro best h'; exact Or.inl h'
    | cons x rest ih =>
      intro best h'
      simp only [List.foldl_cons] at h'
      rcases ih _ h' with h1 | h2
      · split_ifs at h1 with hs
        · simp only [Option.some.injEq] at h1
          exact Or.inr (by simp [h1])
        · exact Or.inl h1
      · exact Or.inr (by simp [h2])
  rcases key _ _ h with h1 | h2
  · simp at h1
  · exact h2

theorem cpu_move_is_legal_witness :
    (⟨2, 0, -2⟩ : Coord) ∈
      calculateValidMoves Player.white [(⟨0, 0, 0⟩, Player.white), (⟨1, 0, -1⟩, Player.black)] :=
  cpu_move_is_legal [(⟨0, 0, 0⟩, Player.white), (⟨1, 0, -1⟩, Player.black)]
    Difficulty.hard (fun _ => 0) ⟨2, 0, -2⟩ (by decide)
